import Mathlib

/-!
# Verification of the link-classification and traversal engine of `web_crawler.py`

This file gives a shallow embedding of the decision core of the crawler:
the recursive `crawl` routine (visited-set deduplication, depth bound,
domain scoping, download budget, exclusion lists) and `download_file`
(download exclusion, filename derivation, already-exists short-circuit,
error resilience), together with theorems settling the specification
claims about them.

External collaborators (the Selenium page fetcher, the HTTP client, the
local filesystem) are modelled as oracles in a `World` record: `pages`
maps a URL to the set of outbound hrefs of the rendered page (`none` for
a page-load failure), `http` gives the outcome of `requests.get` plus
the local write for a URL, and the set of files present in the download
directory lives in the crawl state.  Logging, `time.sleep`, and the
optional Azure blob upload are I/O effects with no influence on the
crawl decisions and are not modelled.  The Python recursion is embedded
as a fuel-indexed structural recursion; all safety theorems are proved
for every fuel value, hence for every terminating run.

Runs produce an explicit trace of `Event`s: a `fetch` for each
`driver.get`, a `downloadCall` for each invocation of `download_file`,
an `httpGet` for each body request, and a `wrote` for each completed
local write.
-/

namespace WebCrawler

/-! ## Character-list utilities mirroring the Python string operations -/

/-- The suffix of `l` after the last occurrence of `sep`
(`l` itself if `sep` does not occur): this is Python's
`p[p.rfind(sep)+1:]`, the core of `os.path.basename` for `sep = '/'`. -/
def afterLast (sep : Char) (l : List Char) : List Char :=
  (l.reverse.takeWhile (fun c => c ≠ sep)).reverse

/-- Python's `str.split(sep)` on character lists. -/
def splitOnC (sep : Char) : List Char → List (List Char)
  | [] => [[]]
  | c :: cs =>
    match splitOnC sep cs with
    | [] => [[]]
    | t :: ts => if c = sep then [] :: t :: ts else (c :: t) :: ts

/-- Remove trailing occurrences of `c`. -/
def dropTrailingC (c : Char) (l : List Char) : List Char :=
  (l.reverse.dropWhile (fun x => x = c)).reverse

/-- Python's `str.strip(c)`: remove leading and trailing occurrences of `c`. -/
def stripChar (c : Char) (l : List Char) : List Char :=
  dropTrailingC c (l.dropWhile (fun x => x = c))

/-- Test that the lower-cased `l` ends with `suf`
(Python `l.lower().endswith(suf)`). -/
def endsWithLower (l : List Char) (suf : List Char) : Bool :=
  suf.isSuffixOf (l.map Char.toLower)

/-- Test that `n` is an initial segment of `h`. -/
def leadsWith : List Char → List Char → Bool
  | [], _ => true
  | _ :: _, [] => false
  | a :: as, b :: bs => a = b && leadsWith as bs

/-- Test that `needle` occurs contiguously in the second argument. -/
def hasSubstr (needle : List Char) : List Char → Bool
  | [] => leadsWith needle []
  | c :: cs => leadsWith needle (c :: cs) || hasSubstr needle cs

/-- Python `needle in hay` on strings (substring test). -/
def substrOf (needle hay : String) : Bool :=
  hasSubstr needle.data hay.data

/-- Python `s.startswith(pre)`. -/
def startsWithS (s pre : String) : Bool :=
  leadsWith pre.data s.data

/-! ## URL parsing

Model of the fields of `urllib.parse.urlparse` that the crawler reads
(`netloc` and `path`), for the absolute `http(s)` URLs the crawler
processes: an optional `scheme:` prefix is stripped, a `//netloc`
component (delimited by `/`, `?` or `#`) is split off, and query and
fragment are cut from what remains. -/

def isSchemeChar (c : Char) : Bool :=
  c.isAlphanum || c = '+' || c = '-' || c = '.'

/-- Strip a leading `scheme:` (first char alphabetic, remaining scheme
chars alphanumeric or `+`/`-`/`.`), as `urllib.parse` does. -/
def dropScheme (s : List Char) : List Char :=
  let pre := s.takeWhile (fun c => c ≠ ':')
  let post := s.dropWhile (fun c => c ≠ ':')
  match post, pre with
  | _ :: rest, c :: cs => if c.isAlpha && cs.all isSchemeChar then rest else s
  | _, _ => s

/-- Split `//netloc` off the scheme-less remainder of a URL. -/
def netlocAndPath (s : List Char) : List Char × List Char :=
  match s with
  | '/' :: '/' :: rest =>
    let nl := rest.takeWhile (fun c => c ≠ '/' && c ≠ '?' && c ≠ '#')
    (nl, rest.drop nl.length)
  | _ => ([], s)

/-- Model of `urllib.parse.urlparse(u).netloc`. -/
def urlNetloc (u : String) : String :=
  ⟨(netlocAndPath (dropScheme u.data)).1⟩

/-- Model of `urllib.parse.urlparse(u).path` (query and fragment removed). -/
def urlPath (u : String) : String :=
  ⟨(netlocAndPath (dropScheme u.data)).2.takeWhile (fun c => c ≠ '?' && c ≠ '#')⟩

/-! ## Extension and filename derivation -/

/-- Model of `os.path.basename(p)`: the part of the path after the last `/`. -/
def basenameOf (p : List Char) : List Char :=
  afterLast '/' p

/-- Model of `os.path.splitext(p)[1].strip(".").lower()` (lines 191 and 85/97 of
the source): the text after the last dot of the final path component,
lower-cased; empty when there is no dot or when the dots are all leading
dots of the component (`splitext` ignores those). -/
def extOfPath (p : List Char) : List Char :=
  let b := basenameOf p
  let rest := b.dropWhile (fun c => c = '.')
  if rest.contains '.' then (afterLast '.' rest).map Char.toLower else []

/-- The extension `crawl` computes for a discovered link (line 191-193):
extension of the URL path, with the empty extension defaulting to
`"html"`. -/
def linkExt (u : String) : String :=
  let e := extOfPath (urlPath u).data
  if e = [] then "html" else ⟨e⟩

/-- The local filename `download_file` derives (lines 85-101).
`now` stands for `int(time.time())`, used only in the (crawl-unreachable)
branch of a non-html download whose URL path has an empty basename. -/
def derivedFilename (now : Nat) (file_ext file_url : String) : String :=
  let p := (urlPath file_url).data
  let filename := basenameOf p
  if file_ext = "html" then
    if filename = [] then
      let parts := splitOnC '/' (stripChar '/' p)
      let lastPart := parts.getLastD []
      if lastPart ≠ [] then (⟨lastPart⟩ : String) ++ ".html" else "home.html"
    else
      if endsWithLower filename ".html".data || endsWithLower filename ".htm".data then
        (⟨filename⟩ : String)
      else (⟨filename⟩ : String) ++ ".html"
  else
    if filename = [] then "downloaded_file_" ++ toString now ++ "." ++ file_ext
    else (⟨filename⟩ : String)

/-! ## The crawl engine -/

/-- Outcome of the body request plus local write in `download_file`
(lines 110-115): success, an exception from `requests.get` /
`raise_for_status` (no file created), or a write failure after the
output file was opened. -/
inductive DlResult
  | ok
  | httpErr
  | writeErr
deriving DecidableEq, Repr

/-- The external collaborators: rendered-page links, HTTP outcomes, and
the wall clock. -/
structure World where
  pages : String → Option (List String)
  http : String → DlResult
  now : Nat

/-- The configuration snapshot passed down the recursion. -/
structure Config where
  start_domain : String
  max_depth : Nat
  stay_on_domain : Bool
  allowed_exts : List String
  max_files : Nat
  exclude_download : List String
  exclude_crawl : List String

/-- The mutable crawl state: `visited_pages`, `downloaded_files_count`,
and the set of file names present in the download directory. -/
structure CrawlState where
  visited : List String
  count : Nat
  files : List String
deriving DecidableEq, Repr

/-- Observable actions of a run. -/
inductive Event
  | fetch (url : String) (depth : Nat)
  | downloadCall (url : String)
  | httpGet (url : String)
  | wrote (name : String)
deriving DecidableEq, Repr

/-- Model of `download_file` (lines 70-126).  Emits `downloadCall` on entry; skips
on exact membership of the URL in `exclude_download` (line 80: Python's
`in` on a list) and on an already-existing local file (line 105); on a
write error the opened file exists afterwards but the counter is
untouched; the counter is incremented only after a completed write
(line 117). -/
def download_file (w : World) (cfg : Config) (file_url file_ext : String)
    (st : CrawlState) : CrawlState × List Event :=
  if cfg.exclude_download.contains file_url then
    (st, [Event.downloadCall file_url])
  else
    let filename := derivedFilename w.now file_ext file_url
    if st.files.contains filename then
      (st, [Event.downloadCall file_url])
    else
      match w.http file_url with
      | DlResult.httpErr =>
        (st, [Event.downloadCall file_url, Event.httpGet file_url])
      | DlResult.writeErr =>
        ({ st with files := filename :: st.files },
         [Event.downloadCall file_url, Event.httpGet file_url])
      | DlResult.ok =>
        ({ st with files := filename :: st.files, count := st.count + 1 },
         [Event.downloadCall file_url, Event.httpGet file_url, Event.wrote filename])

/-- First-occurrence deduplication: the Python code accumulates hrefs
into a `set`; the oracle's list order stands for the set's iteration
order. -/
def dedupFirst (l : List String) : List String :=
  l.foldl (fun acc x => if acc.contains x then acc else acc ++ [x]) []

/-- Lines 200-202: download the html page when `"html"` was requested in
`--extensions` and the budget allows. -/
def dlIfRequested (w : World) (cfg : Config) (link : String)
    (st : CrawlState) : CrawlState × List Event :=
  if "html" ∈ cfg.allowed_exts ∧ (cfg.max_files = 0 ∨ st.count < cfg.max_files)
  then download_file w cfg link "html" st
  else (st, [])

/-- The `for link in links` loop body of `crawl` (lines 188-227).
`recur` is the recursive call to `crawl` at the next depth. -/
def processLinks (w : World) (cfg : Config)
    (recur : String → Nat → CrawlState → CrawlState × List Event) :
    List String → Nat → CrawlState → CrawlState × List Event
  | [], _, st => (st, [])
  | link :: rest, depth, st =>
    let file_ext := linkExt link
    if file_ext = "html" then
      -- lines 196-210
      if cfg.stay_on_domain ∧ urlNetloc link ≠ cfg.start_domain then
        processLinks w cfg recur rest depth st
      else
        let d := dlIfRequested w cfg link st
        if cfg.max_depth ≠ 0 ∧ cfg.max_depth ≤ depth then
          let r := processLinks w cfg recur rest depth d.1
          (r.1, d.2 ++ r.2)
        else
          let c := recur link (depth + 1) d.1
          if cfg.max_files ≠ 0 ∧ cfg.max_files ≤ c.1.count then
            (c.1, d.2 ++ c.2)
          else
            let r := processLinks w cfg recur rest depth c.1
            (r.1, d.2 ++ c.2 ++ r.2)
    else if file_ext ∈ cfg.allowed_exts then
      -- lines 213-216
      if cfg.max_files ≠ 0 ∧ cfg.max_files ≤ st.count then
        (st, [])
      else
        let d := download_file w cfg link file_ext st
        let r := processLinks w cfg recur rest depth d.1
        (r.1, d.2 ++ r.2)
    else
      -- lines 219-227
      if cfg.stay_on_domain ∧ urlNetloc link ≠ cfg.start_domain then
        processLinks w cfg recur rest depth st
      else if cfg.max_depth ≠ 0 ∧ cfg.max_depth ≤ depth then
        processLinks w cfg recur rest depth st
      else
        let c := recur link (depth + 1) st
        if cfg.max_files ≠ 0 ∧ cfg.max_files ≤ c.1.count then
          (c.1, c.2)
        else
          let r := processLinks w cfg recur rest depth c.1
          (r.1, c.2 ++ r.2)

/-- Model of `crawl` (lines 128-227), fuel-indexed.  Budget check (line 144),
visited check-and-mark (147-149), crawl-exclusion substring check
(152-155), page fetch (159), link harvesting with `startswith("http")`
filter, set-deduplication and subtraction of the visited set (174-185),
then the link loop. -/
def crawl (w : World) (cfg : Config) :
    Nat → String → Nat → CrawlState → CrawlState × List Event
  | 0, _, _, st => (st, [])
  | fuel + 1, url, depth, st =>
    if cfg.max_files ≠ 0 ∧ cfg.max_files ≤ st.count then (st, [])
    else if url ∈ st.visited then (st, [])
    else
      let st1 : CrawlState := { st with visited := url :: st.visited }
      if cfg.exclude_crawl.any (fun ex => substrOf ex url) then (st1, [])
      else
        match w.pages url with
        | none => (st1, [Event.fetch url depth])
        | some hrefs =>
          let links := (dedupFirst (hrefs.filter (fun h => startsWithS h "http"))).filter
            (fun l => !(st1.visited.contains l))
          let r := processLinks w cfg (fun u d s => crawl w cfg fuel u d s) links depth st1
          (r.1, Event.fetch url depth :: r.2)

/-- The crawl state at the start of `main` (lines 298-312): empty
visited set, zero counter, and whatever files the download directory
already holds. -/
def initState (files : List String) : CrawlState :=
  ⟨[], 0, files⟩

/-! ## Trace projections -/

/-- URLs of the `fetch` events of a trace. -/
def fetchUrls (tr : List Event) : List String :=
  tr.filterMap fun e =>
    match e with
    | Event.fetch u _ => some u
    | _ => none

/-- URLs passed to `download_file` in a trace. -/
def dlUrls (tr : List Event) : List String :=
  tr.filterMap fun e =>
    match e with
    | Event.downloadCall u => some u
    | _ => none

/-! ## Basic facts about `download_file` -/

theorem download_file_visited (w : World) (cfg : Config) (u e : String)
    (st : CrawlState) : ((download_file w cfg u e st).1).visited = st.visited := by
  unfold download_file
  dsimp only
  repeat' split
  all_goals simp

theorem download_file_count_le (w : World) (cfg : Config) (u e : String)
    (st : CrawlState) : ((download_file w cfg u e st).1).count ≤ st.count + 1 := by
  unfold download_file
  dsimp only
  repeat' split
  all_goals simp

theorem download_file_count_ge (w : World) (cfg : Config) (u e : String)
    (st : CrawlState) : st.count ≤ ((download_file w cfg u e st).1).count := by
  unfold download_file
  dsimp only
  repeat' split
  all_goals simp

theorem download_file_fetchUrls (w : World) (cfg : Config) (u e : String)
    (st : CrawlState) : fetchUrls (download_file w cfg u e st).2 = [] := by
  unfold download_file
  dsimp only
  repeat' split
  all_goals rfl

theorem download_file_no_fetch (w : World) (cfg : Config) (u e : String)
    (st : CrawlState) (x : String) (dx : Nat) :
    Event.fetch x dx ∉ (download_file w cfg u e st).2 := by
  unfold download_file
  dsimp only
  repeat' split
  all_goals simp

theorem download_file_dlUrls (w : World) (cfg : Config) (u e : String)
    (st : CrawlState) : dlUrls (download_file w cfg u e st).2 = [u] := by
  unfold download_file
  dsimp only
  repeat' split
  all_goals rfl

theorem dlIfRequested_visited (w : World) (cfg : Config) (link : String)
    (st : CrawlState) : ((dlIfRequested w cfg link st).1).visited = st.visited := by
  unfold dlIfRequested
  split
  · exact download_file_visited w cfg link "html" st
  · rfl

theorem dlIfRequested_no_fetch (w : World) (cfg : Config) (link : String)
    (st : CrawlState) (x : String) (dx : Nat) :
    Event.fetch x dx ∉ (dlIfRequested w cfg link st).2 := by
  unfold dlIfRequested
  split
  · exact download_file_no_fetch w cfg link "html" st x dx
  · simp

theorem dlIfRequested_dlUrls (w : World) (cfg : Config) (link : String)
    (st : CrawlState) (x : String) :
    x ∈ dlUrls (dlIfRequested w cfg link st).2 → x = link := by
  unfold dlIfRequested
  split
  · rw [download_file_dlUrls]
    simp
  · simp [dlUrls]

theorem dlIfRequested_count_ge (w : World) (cfg : Config) (link : String)
    (st : CrawlState) : st.count ≤ ((dlIfRequested w cfg link st).1).count := by
  unfold dlIfRequested
  split
  · exact download_file_count_ge w cfg link "html" st
  · exact le_refl _

/-! ## C1: the download counter never exceeds a positive `max_files` -/

theorem processLinks_count (w : World) (cfg : Config)
    (recur : String → Nat → CrawlState → CrawlState × List Event)
    (hmf : cfg.max_files ≠ 0)
    (hrec : ∀ u d s, s.count ≤ cfg.max_files → ((recur u d s).1).count ≤ cfg.max_files) :
    ∀ (links : List String) (depth : Nat) (st : CrawlState),
      st.count ≤ cfg.max_files →
      ((processLinks w cfg recur links depth st).1).count ≤ cfg.max_files := by
  intro links
  induction links with
  | nil =>
    intro depth st h
    simpa [processLinks] using h
  | cons link rest ih =>
    intro depth st h
    simp only [processLinks]
    split
    · -- link classified as an html page
      split
      · exact ih depth st h
      · -- no domain skip; the optional html download keeps the bound
        have hd : ((dlIfRequested w cfg link st).1).count ≤ cfg.max_files := by
          unfold dlIfRequested
          split
          · rename_i hcond
            rcases hcond.2 with h0 | hlt
            · exact absurd h0 hmf
            · exact le_trans (download_file_count_le w cfg link "html" st) hlt
          · exact h
        split
        · exact ih depth _ hd
        · have hc := hrec link (depth + 1) _ hd
          split
          · exact hc
          · exact ih depth _ hc
    · split
      · -- downloadable extension
        split
        · exact h
        · rename_i hnbrk
          have hlt : st.count < cfg.max_files := by
            rcases Nat.lt_or_ge st.count cfg.max_files with hx | hx
            · exact hx
            · exact absurd ⟨hmf, hx⟩ hnbrk
          have hd : ((download_file w cfg link (linkExt link) st).1).count ≤ cfg.max_files :=
            le_trans (download_file_count_le w cfg link (linkExt link) st) hlt
          exact ih depth _ hd
      · -- unknown extension: treated as a page
        split
        · exact ih depth st h
        · split
          · exact ih depth st h
          · have hc := hrec link (depth + 1) st h
            split
            · exact hc
            · exact ih depth _ hc

theorem crawl_count (w : World) (cfg : Config) (hmf : cfg.max_files ≠ 0) :
    ∀ (fuel : Nat) (url : String) (depth : Nat) (st : CrawlState),
      st.count ≤ cfg.max_files →
      ((crawl w cfg fuel url depth st).1).count ≤ cfg.max_files := by
  intro fuel
  induction fuel with
  | zero => intro url depth st h; simpa [crawl] using h
  | succ fuel ih =>
    intro url depth st h
    simp only [crawl]
    split
    · exact h
    · split
      · exact h
      · split
        · exact h
        · split
          · exact h
          · exact processLinks_count w cfg (crawl w cfg fuel) hmf
              (fun u d s hs => ih u d s hs) _ depth _ h

/-! ## C2: with a positive `max_depth`, no fetch beyond that depth -/

theorem processLinks_depth (w : World) (cfg : Config)
    (recur : String → Nat → CrawlState → CrawlState × List Event)
    (hN : cfg.max_depth ≠ 0)
    (hrec : ∀ u d s, d ≤ cfg.max_depth →
      ∀ x dx, Event.fetch x dx ∈ (recur u d s).2 → dx ≤ cfg.max_depth) :
    ∀ (links : List String) (depth : Nat) (st : CrawlState) (x : String) (dx : Nat),
      Event.fetch x dx ∈ (processLinks w cfg recur links depth st).2 →
      dx ≤ cfg.max_depth := by
  intro links
  induction links with
  | nil =>
    intro depth st x dx hm
    simp [processLinks] at hm
  | cons link rest ih =>
    intro depth st x dx
    simp only [processLinks]
    split
    · split
      · exact ih depth st x dx
      · split
        · -- depth limit reached: download only, then the remaining links
          intro hm
          simp only [List.mem_append] at hm
          rcases hm with hm | hm
          · exact absurd hm (dlIfRequested_no_fetch w cfg link st x dx)
          · exact ih depth _ x dx hm
        · rename_i hds
          have hd1 : depth + 1 ≤ cfg.max_depth := by
            rcases Nat.lt_or_ge depth cfg.max_depth with hx | hx
            · exact hx
            · exact absurd ⟨hN, hx⟩ hds
          split
          · intro hm
            simp only [List.mem_append] at hm
            rcases hm with hm | hm
            · exact absurd hm (dlIfRequested_no_fetch w cfg link st x dx)
            · exact hrec link (depth + 1) _ hd1 x dx hm
          · intro hm
            simp only [List.mem_append] at hm
            rcases hm with (hm | hm) | hm
            · exact absurd hm (dlIfRequested_no_fetch w cfg link st x dx)
            · exact hrec link (depth + 1) _ hd1 x dx hm
            · exact ih depth _ x dx hm
    · split
      · split
        · intro hm
          simp at hm
        · intro hm
          simp only [List.mem_append] at hm
          rcases hm with hm | hm
          · exact absurd hm (download_file_no_fetch w cfg link (linkExt link) st x dx)
          · exact ih depth _ x dx hm
      · split
        · exact ih depth st x dx
        · split
          · exact ih depth st x dx
          · rename_i hds
            have hd1 : depth + 1 ≤ cfg.max_depth := by
              rcases Nat.lt_or_ge depth cfg.max_depth with hx | hx
              · exact hx
              · exact absurd ⟨hN, hx⟩ hds
            split
            · exact fun hm => hrec link (depth + 1) st hd1 x dx hm
            · intro hm
              simp only [List.mem_append] at hm
              rcases hm with hm | hm
              · exact hrec link (depth + 1) st hd1 x dx hm
              · exact ih depth _ x dx hm

theorem crawl_depth (w : World) (cfg : Config) (hN : cfg.max_depth ≠ 0) :
    ∀ (fuel : Nat) (url : String) (depth : Nat) (st : CrawlState),
      depth ≤ cfg.max_depth →
      ∀ x dx, Event.fetch x dx ∈ (crawl w cfg fuel url depth st).2 →
        dx ≤ cfg.max_depth := by
  intro fuel
  induction fuel with
  | zero =>
    intro url depth st _ x dx hm
    simp [crawl] at hm
  | succ fuel ih =>
    intro url depth st hdep x dx
    simp only [crawl]
    split
    · intro hm; simp at hm
    · split
      · intro hm; simp at hm
      · split
        · intro hm; simp at hm
        · split
          · intro hm
            simp only [List.mem_cons] at hm
            rcases hm with hm | hm
            · cases hm; exact hdep
            · simp at hm
          · intro hm
            simp only [List.mem_cons] at hm
            rcases hm with hm | hm
            · cases hm; exact hdep
            · exact processLinks_depth w cfg (crawl w cfg fuel) hN
                (fun u d s hd => ih u d s hd) _ depth _ x dx hm


/-! ## C3: at-most-once visitation

`VisitP s s' tr` packages what one engine step does to the visited set:
it only grows, and the URLs fetched in the step's trace are pairwise
distinct, new w.r.t. the entry state, and marked in the exit state. -/

def VisitP (s s' : CrawlState) (tr : List Event) : Prop :=
  s.visited ⊆ s'.visited ∧
  (∀ x, x ∈ fetchUrls tr → x ∈ s'.visited ∧ x ∉ s.visited) ∧
  (fetchUrls tr).Nodup

theorem VisitP_refl (s : CrawlState) : VisitP s s [] := by
  refine ⟨List.Subset.refl _, ?_, ?_⟩ <;> simp [fetchUrls]

theorem VisitP_comp {s1 s2 s3 : CrawlState} {t1 t2 : List Event}
    (h1 : VisitP s1 s2 t1) (h2 : VisitP s2 s3 t2) : VisitP s1 s3 (t1 ++ t2) := by
  obtain ⟨m1, f1, n1⟩ := h1
  obtain ⟨m2, f2, n2⟩ := h2
  refine ⟨List.Subset.trans m1 m2, ?_, ?_⟩
  · intro x hx
    rw [fetchUrls, List.filterMap_append, ← fetchUrls, ← fetchUrls,
      List.mem_append] at hx
    rcases hx with hx | hx
    · exact ⟨m2 (f1 x hx).1, (f1 x hx).2⟩
    · exact ⟨(f2 x hx).1, fun hmem => (f2 x hx).2 (m1 hmem)⟩
  · rw [fetchUrls, List.filterMap_append, ← fetchUrls, ← fetchUrls,
      List.nodup_append]
    exact ⟨n1, n2, fun x hx1 hx2 => (f2 x hx2).2 ((f1 x hx1).1)⟩

theorem VisitP_download (w : World) (cfg : Config) (u e : String)
    (st : CrawlState) : VisitP st (download_file w cfg u e st).1 (download_file w cfg u e st).2 := by
  refine ⟨?_, ?_, ?_⟩
  · rw [download_file_visited]
    exact List.Subset.refl _
  · intro x hx
    rw [download_file_fetchUrls] at hx
    simp at hx
  · rw [download_file_fetchUrls]
    exact List.nodup_nil

theorem VisitP_dlIfRequested (w : World) (cfg : Config) (link : String)
    (st : CrawlState) :
    VisitP st (dlIfRequested w cfg link st).1 (dlIfRequested w cfg link st).2 := by
  unfold dlIfRequested
  split
  · exact VisitP_download w cfg link "html" st
  · exact VisitP_refl st

theorem processLinks_visit (w : World) (cfg : Config)
    (recur : String → Nat → CrawlState → CrawlState × List Event)
    (hrec : ∀ u d s, VisitP s (recur u d s).1 (recur u d s).2) :
    ∀ (links : List String) (depth : Nat) (st : CrawlState),
      VisitP st (processLinks w cfg recur links depth st).1
        (processLinks w cfg recur links depth st).2 := by
  intro links
  induction links with
  | nil =>
    intro depth st
    simpa [processLinks] using VisitP_refl st
  | cons link rest ih =>
    intro depth st
    simp only [processLinks]
    split
    · split
      · exact ih depth st
      · split
        · exact VisitP_comp (VisitP_dlIfRequested w cfg link st) (ih depth _)
        · split
          · exact VisitP_comp (VisitP_dlIfRequested w cfg link st)
              (hrec link (depth + 1) _)
          · exact VisitP_comp
              (VisitP_comp (VisitP_dlIfRequested w cfg link st) (hrec link (depth + 1) _))
              (ih depth _)
    · split
      · split
        · exact VisitP_refl st
        · exact VisitP_comp (VisitP_download w cfg link (linkExt link) st) (ih depth _)
      · split
        · exact ih depth st
        · split
          · exact ih depth st
          · split
            · exact hrec link (depth + 1) st
            · exact VisitP_comp (hrec link (depth + 1) st) (ih depth _)

theorem crawl_visit (w : World) (cfg : Config) :
    ∀ (fuel : Nat) (url : String) (depth : Nat) (st : CrawlState),
      VisitP st (crawl w cfg fuel url depth st).1 (crawl w cfg fuel url depth st).2 := by
  intro fuel
  induction fuel with
  | zero =>
    intro url depth st
    simpa [crawl] using VisitP_refl st
  | succ fuel ih =>
    intro url depth st
    simp only [crawl]
    split
    · exact VisitP_refl st
    · split
      · exact VisitP_refl st
      · have hstep : VisitP st ({ st with visited := url :: st.visited })
            [Event.fetch url depth] := by
          rename_i hnv
          refine ⟨fun x hx => List.mem_cons_of_mem _ hx, ?_, ?_⟩
          · intro x hx
            simp only [fetchUrls, List.filterMap] at hx
            simp at hx
            subst hx
            exact ⟨List.mem_cons_self _ _, hnv⟩
          · simp [fetchUrls]
        split
        · exact ⟨fun x hx => List.mem_cons_of_mem _ hx, by simp [fetchUrls], by simp [fetchUrls]⟩
        · split
          · exact hstep
          · exact VisitP_comp hstep
              (processLinks_visit w cfg (crawl w cfg fuel) (fun u d s => ih u d s) _ depth _)

/-! ## C5 (amended): every dispatched download has html or an allowed extension -/

theorem dlUrls_append (t1 t2 : List Event) :
    dlUrls (t1 ++ t2) = dlUrls t1 ++ dlUrls t2 := by
  simp [dlUrls, List.filterMap_append]

theorem dlUrls_cons_fetch (u : String) (d : Nat) (tr : List Event) :
    dlUrls (Event.fetch u d :: tr) = dlUrls tr := rfl

theorem processLinks_dlExt (w : World) (cfg : Config)
    (recur : String → Nat → CrawlState → CrawlState × List Event)
    (hrec : ∀ u d s x, x ∈ dlUrls (recur u d s).2 →
      linkExt x = "html" ∨ linkExt x ∈ cfg.allowed_exts) :
    ∀ (links : List String) (depth : Nat) (st : CrawlState) (x : String),
      x ∈ dlUrls (processLinks w cfg recur links depth st).2 →
      linkExt x = "html" ∨ linkExt x ∈ cfg.allowed_exts := by
  intro links
  induction links with
  | nil =>
    intro depth st x hm
    simp [processLinks, dlUrls] at hm
  | cons link rest ih =>
    intro depth st x
    simp only [processLinks]
    split
    · rename_i hext
      split
      · exact ih depth st x
      · split
        · intro hm
          rw [dlUrls_append, List.mem_append] at hm
          rcases hm with hm | hm
          · exact Or.inl (dlIfRequested_dlUrls w cfg link st x hm ▸ hext)
          · exact ih depth _ x hm
        · split
          · intro hm
            rw [dlUrls_append, List.mem_append] at hm
            rcases hm with hm | hm
            · exact Or.inl (dlIfRequested_dlUrls w cfg link st x hm ▸ hext)
            · exact hrec link (depth + 1) _ x hm
          · intro hm
            rw [dlUrls_append, dlUrls_append, List.mem_append, List.mem_append] at hm
            rcases hm with (hm | hm) | hm
            · exact Or.inl (dlIfRequested_dlUrls w cfg link st x hm ▸ hext)
            · exact hrec link (depth + 1) _ x hm
            · exact ih depth _ x hm
    · rename_i hext
      split
      · rename_i hall
        split
        · intro hm
          simp [dlUrls] at hm
        · intro hm
          rw [dlUrls_append, List.mem_append] at hm
          rcases hm with hm | hm
          · rw [download_file_dlUrls] at hm
            simp at hm
            exact Or.inr (hm ▸ hall)
          · exact ih depth _ x hm
      · split
        · exact ih depth st x
        · split
          · exact ih depth st x
          · split
            · exact fun hm => hrec link (depth + 1) st x hm
            · intro hm
              rw [dlUrls_append, List.mem_append] at hm
              rcases hm with hm | hm
              · exact hrec link (depth + 1) st x hm
              · exact ih depth _ x hm

theorem crawl_dlExt (w : World) (cfg : Config) :
    ∀ (fuel : Nat) (url : String) (depth : Nat) (st : CrawlState) (x : String),
      x ∈ dlUrls (crawl w cfg fuel url depth st).2 →
      linkExt x = "html" ∨ linkExt x ∈ cfg.allowed_exts := by
  intro fuel
  induction fuel with
  | zero =>
    intro url depth st x hm
    simp [crawl, dlUrls] at hm
  | succ fuel ih =>
    intro url depth st x
    simp only [crawl]
    split
    · intro hm; simp [dlUrls] at hm
    · split
      · intro hm; simp [dlUrls] at hm
      · split
        · intro hm; simp [dlUrls] at hm
        · split
          · intro hm; simp [dlUrls] at hm
          · intro hm
            dsimp only at hm
            rw [dlUrls_cons_fetch] at hm
            exact processLinks_dlExt w cfg (crawl w cfg fuel)
              (fun u d s y hy => ih u d s y hy) _ depth _ x hm

/-! ## C10: every URL passed to `download_file` was unvisited at entry -/

theorem processLinks_dlNew (w : World) (cfg : Config)
    (recur : String → Nat → CrawlState → CrawlState × List Event)
    (V : List String)
    (hrecmono : ∀ u d s, s.visited ⊆ ((recur u d s).1).visited)
    (hrecdl : ∀ u d s x, x ∈ dlUrls (recur u d s).2 → x ∉ s.visited) :
    ∀ (links : List String) (depth : Nat) (st : CrawlState),
      (∀ l ∈ links, l ∉ V) → (∀ v ∈ V, v ∈ st.visited) →
      ∀ x, x ∈ dlUrls (processLinks w cfg recur links depth st).2 → x ∉ V := by
  intro links
  induction links with
  | nil =>
    intro depth st _ _ x hm
    simp [processLinks, dlUrls] at hm
  | cons link rest ih =>
    intro depth st hL hV x
    have hLr : ∀ l ∈ rest, l ∉ V := fun l hl => hL l (List.mem_cons_of_mem _ hl)
    have hLl : link ∉ V := hL link (List.mem_cons_self _ _)
    simp only [processLinks]
    split
    · split
      · exact ih depth st hLr hV x
      · have hVd : ∀ v ∈ V, v ∈ ((dlIfRequested w cfg link st).1).visited := by
          intro v hv
          rw [dlIfRequested_visited]
          exact hV v hv
        split
        · intro hm
          rw [dlUrls_append, List.mem_append] at hm
          rcases hm with hm | hm
          · exact (dlIfRequested_dlUrls w cfg link st x hm) ▸ hLl
          · exact ih depth _ hLr hVd x hm
        · have hVc : ∀ v ∈ V, v ∈ ((recur link (depth + 1) (dlIfRequested w cfg link st).1).1).visited :=
            fun v hv => hrecmono link (depth + 1) _ (hVd v hv)
          have hCm : ∀ y, y ∈ dlUrls (recur link (depth + 1) (dlIfRequested w cfg link st).1).2 → y ∉ V := by
            intro y hy hyV
            exact hrecdl link (depth + 1) _ y hy (hVd y hyV)
          split
          · intro hm
            rw [dlUrls_append, List.mem_append] at hm
            rcases hm with hm | hm
            · exact (dlIfRequested_dlUrls w cfg link st x hm) ▸ hLl
            · exact hCm x hm
          · intro hm
            rw [dlUrls_append, dlUrls_append, List.mem_append, List.mem_append] at hm
            rcases hm with (hm | hm) | hm
            · exact (dlIfRequested_dlUrls w cfg link st x hm) ▸ hLl
            · exact hCm x hm
            · exact ih depth _ hLr hVc x hm
    · split
      · split
        · intro hm
          simp [dlUrls] at hm
        · have hVd : ∀ v ∈ V, v ∈ ((download_file w cfg link (linkExt link) st).1).visited := by
            intro v hv
            rw [download_file_visited]
            exact hV v hv
          intro hm
          rw [dlUrls_append, List.mem_append] at hm
          rcases hm with hm | hm
          · rw [download_file_dlUrls] at hm
            simp at hm
            exact hm ▸ hLl
          · exact ih depth _ hLr hVd x hm
      · split
        · exact ih depth st hLr hV x
        · split
          · exact ih depth st hLr hV x
          · have hVc : ∀ v ∈ V, v ∈ ((recur link (depth + 1) st).1).visited :=
              fun v hv => hrecmono link (depth + 1) st (hV v hv)
            have hCm : ∀ y, y ∈ dlUrls (recur link (depth + 1) st).2 → y ∉ V := by
              intro y hy hyV
              exact hrecdl link (depth + 1) st y hy (hV y hyV)
            split
            · exact fun hm => hCm x hm
            · intro hm
              rw [dlUrls_append, List.mem_append] at hm
              rcases hm with hm | hm
              · exact hCm x hm
              · exact ih depth _ hLr hVc x hm

theorem crawl_dlNew (w : World) (cfg : Config) :
    ∀ (fuel : Nat) (url : String) (depth : Nat) (st : CrawlState) (x : String),
      x ∈ dlUrls (crawl w cfg fuel url depth st).2 →
      x ∉ st.visited ∧ x ≠ url := by
  intro fuel
  induction fuel with
  | zero =>
    intro url depth st x hm
    simp [crawl, dlUrls] at hm
  | succ fuel ih =>
    intro url depth st x
    simp only [crawl]
    split
    · intro hm; simp [dlUrls] at hm
    · rename_i hnv
      split
      · intro hm; simp [dlUrls] at hm
      · split
        · intro hm; simp [dlUrls] at hm
        · split
          · intro hm; simp [dlUrls] at hm
          · rename_i hrefs heq
            intro hm
            dsimp only at hm
            rw [dlUrls_cons_fetch] at hm
            have hlinks : ∀ l ∈ (dedupFirst (hrefs.filter (fun h => startsWithS h "http"))).filter
                (fun l => !((url :: st.visited).contains l)), l ∉ (url :: st.visited) := by
              intro l hl hlv
              simp only [List.mem_filter] at hl
              have h2 := hl.2
              simp at h2
              rcases List.mem_cons.mp hlv with hx | hx
              · exact h2.1 hx
              · exact h2.2 hx
            have hnotV := processLinks_dlNew w cfg (crawl w cfg fuel)
              (url :: st.visited)
              (fun u d s => (crawl_visit w cfg fuel u d s).1)
              (fun u d s y hy => (ih u d s y hy).1)
              ((dedupFirst (hrefs.filter (fun h => startsWithS h "http"))).filter
                (fun l => !((url :: st.visited).contains l)))
              depth { st with visited := url :: st.visited }
              hlinks
              (fun v hv => hv)
              x hm
            constructor
            · exact fun hx => hnotV (List.mem_cons_of_mem _ hx)
            · exact fun hx => hnotV (hx ▸ List.mem_cons_self _ _)

/-! ## C6: filename derivation for pages saved as html

The specification states the rule in terms of path segments; the code
computes with `os.path.basename` and `strip('/')`/`split('/')`.  The
definitions below translate the specification wording, and the lemmas
relate the two computations. -/

/-- The claim's "last non-empty path segment" of a URL path. -/
def lastNonEmptySegment (p : List Char) : List Char :=
  ((splitOnC '/' p).filter (fun s => !s.isEmpty)).getLastD []

/-- The claim's filename rule for pages saved as html, as amended: the
already-has-an-html-extension test accepts `.htm` besides `.html`
(case-insensitively), exactly as the code does. -/
def claimHtmlFilename (p : List Char) : String :=
  let seg := afterLast '/' p
  if seg ≠ [] then
    if endsWithLower seg ".html".data || endsWithLower seg ".htm".data then (⟨seg⟩ : String)
    else (⟨seg⟩ : String) ++ ".html"
  else
    let lns := lastNonEmptySegment p
    if lns ≠ [] then (⟨lns⟩ : String) ++ ".html" else "home.html"

/-- The claim's filename rule read literally: the html suffix is appended
whenever the final path segment does not already end in `".html"`. -/
def claimHtmlFilenameLiteral (p : List Char) : String :=
  let seg := afterLast '/' p
  if seg ≠ [] then
    if endsWithLower seg ".html".data then (⟨seg⟩ : String)
    else (⟨seg⟩ : String) ++ ".html"
  else
    let lns := lastNonEmptySegment p
    if lns ≠ [] then (⟨lns⟩ : String) ++ ".html" else "home.html"

/-- Replace the last element of a list of segments. -/
def modifyLastC (f : List Char → List Char) : List (List Char) → List (List Char)
  | [] => []
  | [x] => [f x]
  | x :: xs => x :: modifyLastC f xs

theorem splitOnC_ne_nil (sep : Char) (l : List Char) : splitOnC sep l ≠ [] := by
  cases l with
  | nil => simp [splitOnC]
  | cons c cs =>
    simp only [splitOnC]
    split
    · simp
    · split <;> simp

theorem modifyLastC_ne_nil (f : List Char → List Char) (x : List Char)
    (xs : List (List Char)) : modifyLastC f (x :: xs) ≠ [] := by
  cases xs <;> simp [modifyLastC]

theorem getLastD_irrel {α : Type} {l : List α} (h : l ≠ []) (d d' : α) :
    l.getLastD d = l.getLastD d' := by
  cases l with
  | nil => exact absurd rfl h
  | cons x xs => rw [List.getLastD_cons, List.getLastD_cons]

theorem modifyLastC_getLastD (f : List Char → List Char) :
    ∀ (L : List (List Char)), L ≠ [] →
      (modifyLastC f L).getLastD [] = f (L.getLastD []) := by
  intro L
  induction L with
  | nil => intro h; exact absurd rfl h
  | cons x xs ih =>
    intro _
    cases xs with
    | nil => simp [modifyLastC]
    | cons y ys =>
      have hne := modifyLastC_ne_nil f y ys
      calc (modifyLastC f (x :: y :: ys)).getLastD []
          = (x :: modifyLastC f (y :: ys)).getLastD [] := by simp [modifyLastC]
        _ = (modifyLastC f (y :: ys)).getLastD x := List.getLastD_cons ..
        _ = (modifyLastC f (y :: ys)).getLastD [] := getLastD_irrel hne x []
        _ = f ((y :: ys).getLastD []) := ih (by simp)
        _ = f ((x :: y :: ys).getLastD []) := by simp [List.getLastD_cons]

theorem takeWhile_append_neg {p : Char → Bool} {c : Char} (hc : p c = false)
    (l : List Char) : (l ++ [c]).takeWhile p = l.takeWhile p := by
  induction l with
  | nil => simp [List.takeWhile, hc]
  | cons a as ih =>
    rw [List.cons_append, List.takeWhile_cons, List.takeWhile_cons]
    cases h : p a
    · rfl
    · rw [ih]

theorem dropWhile_append_of_ne_nil {p : Char → Bool} {l : List Char}
    (h : l.dropWhile p ≠ []) (c : Char) :
    (l ++ [c]).dropWhile p = l.dropWhile p ++ [c] := by
  induction l with
  | nil => exact absurd rfl h
  | cons a as ih =>
    rw [List.cons_append, List.dropWhile_cons, List.dropWhile_cons] at *
    cases hpa : p a
    · simp [hpa]
    · simp only [hpa] at h ⊢
      exact ih h

theorem dropWhile_append_of_nil {p : Char → Bool} {l : List Char}
    (h : l.dropWhile p = []) {c : Char} (hc : p c = true) :
    (l ++ [c]).dropWhile p = [] := by
  induction l with
  | nil => simp [List.dropWhile, hc]
  | cons a as ih =>
    rw [List.cons_append, List.dropWhile_cons] at *
    cases hpa : p a
    · simp [hpa] at h
    · simp only [hpa] at h ⊢
      exact ih h

theorem afterLast_nil (sep : Char) : afterLast sep [] = [] := rfl

theorem afterLast_append_sep (sep : Char) (m : List Char) :
    afterLast sep (m ++ [sep]) = [] := by
  unfold afterLast
  rw [List.reverse_append]
  simp [List.takeWhile_cons]

theorem afterLast_append_ne (sep c : Char) (hc : c ≠ sep) (m : List Char) :
    afterLast sep (m ++ [c]) = afterLast sep m ++ [c] := by
  unfold afterLast
  rw [List.reverse_append]
  simp only [List.reverse_cons, List.reverse_nil, List.nil_append, List.singleton_append,
    List.takeWhile_cons]
  simp [hc]

theorem afterLast_cons_sep (sep : Char) (x : List Char) :
    afterLast sep (sep :: x) = afterLast sep x := by
  unfold afterLast
  rw [List.reverse_cons, takeWhile_append_neg (by simp)]

theorem dropTrailingC_append_sep (sep : Char) (m : List Char) :
    dropTrailingC sep (m ++ [sep]) = dropTrailingC sep m := by
  unfold dropTrailingC
  rw [List.reverse_append]
  simp [List.dropWhile_cons]

theorem dropTrailingC_append_ne (sep c : Char) (hc : c ≠ sep) (m : List Char) :
    dropTrailingC sep (m ++ [c]) = m ++ [c] := by
  unfold dropTrailingC
  rw [List.reverse_append]
  simp only [List.reverse_cons, List.reverse_nil, List.nil_append, List.singleton_append,
    List.dropWhile_cons]
  simp [hc]

theorem splitOnC_append_sep (sep : Char) :
    ∀ m : List Char, splitOnC sep (m ++ [sep]) = splitOnC sep m ++ [[]] := by
  intro m
  induction m with
  | nil => simp [splitOnC]
  | cons x xs ih =>
    rw [List.cons_append]
    simp only [splitOnC]
    rw [ih]
    cases h : splitOnC sep xs with
    | nil => exact absurd h (splitOnC_ne_nil sep xs)
    | cons t ts =>
      by_cases hx : x = sep <;> simp [hx]

theorem splitOnC_append_ne (sep c : Char) (hc : c ≠ sep) :
    ∀ m : List Char,
      splitOnC sep (m ++ [c]) = modifyLastC (fun t => t ++ [c]) (splitOnC sep m) := by
  intro m
  induction m with
  | nil => simp [splitOnC, modifyLastC, hc]
  | cons x xs ih =>
    rw [List.cons_append]
    simp only [splitOnC]
    rw [ih]
    cases h : splitOnC sep xs with
    | nil => exact absurd h (splitOnC_ne_nil sep xs)
    | cons t ts =>
      cases ts with
      | nil =>
        by_cases hx : x = sep <;> simp [hx, modifyLastC]
      | cons u us =>
        by_cases hx : x = sep <;> simp [hx, modifyLastC]

theorem splitOnC_getLastD (sep : Char) (s : List Char) :
    (splitOnC sep s).getLastD [] = afterLast sep s := by
  induction s using List.reverseRecOn with
  | nil => simp [splitOnC, afterLast]
  | append_singleton m c ih =>
    by_cases hc : c = sep
    · subst hc
      rw [splitOnC_append_sep, List.getLastD_concat, afterLast_append_sep]
    · rw [splitOnC_append_ne sep c hc,
        modifyLastC_getLastD _ _ (splitOnC_ne_nil sep m), ih,
        afterLast_append_ne sep c hc]

theorem filter_modifyLast_getLastD (c : Char) :
    ∀ (L : List (List Char)), L ≠ [] →
      ((modifyLastC (fun t => t ++ [c]) L).filter (fun s => !s.isEmpty)).getLastD []
        = L.getLastD [] ++ [c] := by
  intro L
  induction L with
  | nil => intro h; exact absurd rfl h
  | cons x xs ih =>
    intro _
    cases xs with
    | nil => cases x <;> simp [modifyLastC, List.filter]
    | cons y ys =>
      have hIH := ih (by simp)
      have hfne :
          ((modifyLastC (fun t => t ++ [c]) (y :: ys)).filter (fun s => !s.isEmpty)) ≠ [] := by
        intro hnil
        rw [hnil] at hIH
        simp at hIH
      rw [show modifyLastC (fun t => t ++ [c]) (x :: y :: ys)
            = x :: modifyLastC (fun t => t ++ [c]) (y :: ys) from by simp [modifyLastC]]
      rw [List.filter_cons]
      by_cases hx : (!x.isEmpty) = true
      · rw [if_pos hx, List.getLastD_cons, getLastD_irrel hfne x [], hIH]
        simp [List.getLastD_cons]
      · rw [if_neg hx, hIH]
        simp [List.getLastD_cons]

theorem filter_splitOnC_getLastD (sep : Char) (l : List Char) :
    ((splitOnC sep l).filter (fun s => !s.isEmpty)).getLastD []
      = afterLast sep (dropTrailingC sep l) := by
  induction l using List.reverseRecOn with
  | nil => simp [splitOnC, dropTrailingC, afterLast]
  | append_singleton m c ih =>
    by_cases hc : c = sep
    · subst hc
      rw [splitOnC_append_sep, List.filter_append, dropTrailingC_append_sep]
      simpa using ih
    · rw [splitOnC_append_ne sep c hc,
        filter_modifyLast_getLastD c _ (splitOnC_ne_nil sep m),
        splitOnC_getLastD, dropTrailingC_append_ne sep c hc,
        afterLast_append_ne sep c hc]

theorem afterLast_dropTrailing_cons_sep (sep : Char) (l : List Char) :
    afterLast sep (dropTrailingC sep (sep :: l)) = afterLast sep (dropTrailingC sep l) := by
  unfold dropTrailingC
  rw [List.reverse_cons]
  by_cases hnil : l.reverse.dropWhile (fun x => x = sep) = []
  · rw [dropWhile_append_of_nil hnil (by simp), hnil]
  · rw [dropWhile_append_of_ne_nil hnil sep, List.reverse_append]
    simp only [List.reverse_cons, List.reverse_nil, List.nil_append, List.singleton_append]
    rw [afterLast_cons_sep]

theorem afterLast_strip (sep : Char) : ∀ (l : List Char),
    afterLast sep (stripChar sep l) = afterLast sep (dropTrailingC sep l) := by
  intro l
  induction l with
  | nil => rfl
  | cons x xs ih =>
    by_cases hx : x = sep
    · have h1 : stripChar sep (x :: xs) = stripChar sep xs := by
        unfold stripChar
        rw [List.dropWhile_cons]
        simp [hx]
      rw [h1, ih, hx, afterLast_dropTrailing_cons_sep]
    · have h1 : stripChar sep (x :: xs) = dropTrailingC sep (x :: xs) := by
        unfold stripChar
        rw [List.dropWhile_cons]
        simp [hx]
      rw [h1]

/-- The code's `path.strip('/').split('/')[-1]` equals the claim's "last
non-empty path segment". -/
theorem strip_split_getLastD (p : List Char) :
    (splitOnC '/' (stripChar '/' p)).getLastD [] = lastNonEmptySegment p := by
  rw [splitOnC_getLastD, afterLast_strip]
  exact (filter_splitOnC_getLastD '/' p).symm

/-! ## C7 and C8: already-exists short-circuit and error resilience -/

theorem download_file_exists_skip (w : World) (cfg : Config) (u e : String)
    (st : CrawlState) (hex : st.files.contains (derivedFilename w.now e u) = true) :
    download_file w cfg u e st = (st, [Event.downloadCall u]) := by
  unfold download_file
  dsimp only
  split
  · rfl
  · simp [hex]

theorem download_file_err_count (w : World) (cfg : Config) (u e : String)
    (st : CrawlState) (herr : w.http u ≠ DlResult.ok) :
    ((download_file w cfg u e st).1).count = st.count := by
  unfold download_file
  dsimp only
  split
  · rfl
  · split
    · rfl
    · split
      · rfl
      · rfl
      · rename_i hok
        exact absurd hok herr

theorem download_file_call_mem (w : World) (cfg : Config) (u e : String)
    (st : CrawlState) : Event.downloadCall u ∈ (download_file w cfg u e st).2 := by
  unfold download_file
  dsimp only
  repeat' split
  all_goals simp

/-! ## Concrete worlds and configurations used to evaluate the engine -/

/-- A start page with two same-domain pdf links; all downloads succeed. -/
def wPdf : World :=
  ⟨fun u => if u = "http://a/" then some ["http://a/x.pdf", "http://a/y.pdf"] else none,
   fun _ => DlResult.ok, 0⟩

/-- pdf downloads, no download cap. -/
def cfgPdf0 : Config := ⟨"a", 2, true, ["pdf"], 0, [], []⟩

/-- pdf downloads, download cap 1. -/
def cfgPdf1 : Config := ⟨"a", 2, true, ["pdf"], 1, [], []⟩

/-- A three-page chain: the start page links to `b`, which links to `c`. -/
def wChain : World :=
  ⟨fun u => if u = "http://a/" then some ["http://a/b"]
    else if u = "http://a/b" then some ["http://a/c"]
    else if u = "http://a/c" then some [] else none,
   fun _ => DlResult.ok, 0⟩

/-- Unbounded depth (`max_depth = 0`). -/
def cfgChain0 : Config := ⟨"a", 0, true, ["pdf"], 0, [], []⟩

/-- Depth bound 2. -/
def cfgChain2 : Config := ⟨"a", 2, true, ["pdf"], 0, [], []⟩

/-- A start page with one `.php` link (extension neither allowed nor html). -/
def wPhp : World :=
  ⟨fun u => if u = "http://a/" then some ["http://a/x.php"]
    else if u = "http://a/x.php" then some [] else none,
   fun _ => DlResult.ok, 0⟩

/-- The pdf world where the first download fails with an HTTP error. -/
def wErr : World :=
  ⟨fun u => if u = "http://a/" then some ["http://a/x.pdf", "http://a/y.pdf"] else none,
   fun u => if u = "http://a/x.pdf" then DlResult.httpErr else DlResult.ok, 0⟩

/-- A page-less world (every load fails). -/
def wNone : World := ⟨fun _ => none, fun _ => DlResult.ok, 0⟩

/-- Download-exclusion list holding the substring "secret". -/
def cfgSecret : Config := ⟨"a", 2, true, ["pdf"], 0, ["secret"], []⟩

/-! ## Claim theorems -/

/-- C1: for every crawl run with `max_files > 0` the downloaded-file
counter never exceeds `max_files` (the budget check guards every
increment); and with `max_files = 0` no cap is applied: on a two-pdf
page the run with `max_files = 0` downloads both files while the same
run with `max_files = 1` downloads exactly one. -/
theorem C1_max_files_cap :
    (∀ (w : World) (cfg : Config) (fuel : Nat) (url : String) (depth : Nat)
        (st : CrawlState),
        0 < cfg.max_files → st.count ≤ cfg.max_files →
        ((crawl w cfg fuel url depth st).1).count ≤ cfg.max_files) ∧
    ((crawl wPdf cfgPdf0 2 "http://a/" 1 (initState [])).1.count = 2 ∧
     (crawl wPdf cfgPdf1 2 "http://a/" 1 (initState [])).1.count = 1) := by
  constructor
  · intro w cfg fuel url depth st hpos h
    exact crawl_count w cfg (by omega) fuel url depth st h
  · exact ⟨by decide, by decide⟩

theorem C1_max_files_cap_witness :
    (0 < cfgPdf1.max_files ∧ (initState []).count ≤ cfgPdf1.max_files) ∧
    ((crawl wPdf cfgPdf1 2 "http://a/" 1 (initState [])).1).count ≤ cfgPdf1.max_files :=
  ⟨⟨by decide, by decide⟩,
   C1_max_files_cap.1 wPdf cfgPdf1 2 "http://a/" 1 (initState []) (by decide) (by decide)⟩

/-- C2: with `max_depth = N > 0` no task is fetched at a depth beyond
`N` (recursion only happens while `current_depth < max_depth`); and with
`max_depth = 0` the engine imposes no depth bound: on a three-page chain
with `max_depth = 0`, the third page is fetched at depth 3. -/
theorem C2_depth_bound :
    (∀ (w : World) (cfg : Config) (fuel : Nat) (start : String) (files : List String),
        0 < cfg.max_depth →
        ∀ x dx, Event.fetch x dx ∈ (crawl w cfg fuel start 1 (initState files)).2 →
          dx ≤ cfg.max_depth) ∧
    Event.fetch "http://a/c" 3 ∈ (crawl wChain cfgChain0 3 "http://a/" 1 (initState [])).2 := by
  constructor
  · intro w cfg fuel start files hpos x dx hm
    exact crawl_depth w cfg (by omega) fuel start 1 (initState files) hpos x dx hm
  · decide

theorem C2_depth_bound_witness :
    (0 < cfgChain2.max_depth ∧
      Event.fetch "http://a/b" 2 ∈ (crawl wChain cfgChain2 3 "http://a/" 1 (initState [])).2) ∧
    2 ≤ cfgChain2.max_depth :=
  ⟨⟨by decide, by decide⟩,
   C2_depth_bound.1 wChain cfgChain2 3 "http://a/" [] (by decide) "http://a/b" 2 (by decide)⟩

/-- C3: the visited-set check-and-mark lets a URL through at most once:
a crawl call on a URL already in the visited set returns immediately
with no events (in particular before any fetch), and consequently the
fetched URLs of any run are pairwise distinct. -/
theorem C3_visit_once :
    (∀ (w : World) (cfg : Config) (fuel : Nat) (url : String) (depth : Nat)
        (st : CrawlState),
        url ∈ st.visited → crawl w cfg fuel url depth st = (st, [])) ∧
    (∀ (w : World) (cfg : Config) (fuel : Nat) (url : String) (depth : Nat)
        (st : CrawlState),
        (fetchUrls (crawl w cfg fuel url depth st).2).Nodup) := by
  constructor
  · intro w cfg fuel url depth st hv
    cases fuel with
    | zero => rfl
    | succ fuel =>
      simp only [crawl]
      split
      · rfl
      all_goals simp_all
  · intro w cfg fuel url depth st
    exact (crawl_visit w cfg fuel url depth st).2.2

theorem C3_visit_once_witness :
    ("http://a/" ∈ (⟨["http://a/"], 0, []⟩ : CrawlState).visited) ∧
    crawl wPdf cfgPdf0 2 "http://a/" 1 ⟨["http://a/"], 0, []⟩ =
      ((⟨["http://a/"], 0, []⟩ : CrawlState), []) :=
  ⟨by decide,
   C3_visit_once.1 wPdf cfgPdf0 2 "http://a/" 1 ⟨["http://a/"], 0, []⟩ (by decide)⟩

/-- C4: the claim says a link URL merely containing an exclusion entry
as a substring is skipped; the code (line 80) tests exact list
membership instead, contradicting its own CLI help ("Lista de
subcadenas de URL a excluir de la descarga") and the substring
treatment of `exclude_crawl` (line 153).  At the failing input the URL
contains the entry "secret" as a substring, is not an exact member of
the list, and is downloaded anyway: the body request is issued and the
counter is incremented. -/
theorem C4_exclusion_exact_not_substring :
    substrOf "secret" "http://a/secret/d.pdf" = true ∧
    "http://a/secret/d.pdf" ∉ cfgSecret.exclude_download ∧
    (download_file wNone cfgSecret "http://a/secret/d.pdf" "pdf" (initState [])).1.count = 1 ∧
    Event.httpGet "http://a/secret/d.pdf" ∈
      (download_file wNone cfgSecret "http://a/secret/d.pdf" "pdf" (initState [])).2 :=
  ⟨by decide, by decide, by decide, by decide⟩

/-- C5 counterexample: a link with extension `php` — non-empty, not in
the allowed set, not html — is recursed into as a page (fetched at
depth 2), refuting "neither downloaded nor recursed into". -/
theorem C5_counterexample :
    linkExt "http://a/x.php" = "php" ∧
    "php" ∉ cfgPdf0.allowed_exts ∧
    Event.fetch "http://a/x.php" 2 ∈ (crawl wPhp cfgPdf0 2 "http://a/" 1 (initState [])).2 :=
  ⟨by decide, by decide, by decide⟩

/-- C5 as amended: a link whose extension is neither in the allowed set
nor html is never dispatched for download — every URL passed to
`download_file` during a crawl has extension html or an allowed one —
but rather than being skipped it is treated as a page and recursed into
(subject to the domain, depth and budget checks), as the counterexample
run shows. -/
theorem C5_unclassified_never_downloaded :
    ∀ (w : World) (cfg : Config) (fuel : Nat) (url : String) (depth : Nat)
      (st : CrawlState) (x : String),
      x ∈ dlUrls (crawl w cfg fuel url depth st).2 →
      linkExt x = "html" ∨ linkExt x ∈ cfg.allowed_exts :=
  fun w cfg => crawl_dlExt w cfg

theorem C5_unclassified_never_downloaded_witness :
    ("http://a/x.pdf" ∈ dlUrls (crawl wPdf cfgPdf0 2 "http://a/" 1 (initState [])).2) ∧
    (linkExt "http://a/x.pdf" = "html" ∨ linkExt "http://a/x.pdf" ∈ cfgPdf0.allowed_exts) :=
  ⟨by decide,
   C5_unclassified_never_downloaded wPdf cfgPdf0 2 "http://a/" 1 (initState [])
     "http://a/x.pdf" (by decide)⟩

/-- C6 counterexample: for the page URL `http://a/..htm` (empty
syntactic extension, hence saved as an html page) the final path
segment is `..htm`; it does not end in ".html", so the claim's rule
appends ".html", but the code also accepts a `.htm` ending and keeps
the name unchanged. -/
theorem C6_counterexample :
    linkExt "http://a/..htm" = "html" ∧
    derivedFilename 0 "html" "http://a/..htm" = "..htm" ∧
    claimHtmlFilenameLiteral (urlPath "http://a/..htm").data = "..htm.html" ∧
    derivedFilename 0 "html" "http://a/..htm" ≠
      claimHtmlFilenameLiteral (urlPath "http://a/..htm").data :=
  ⟨by decide, by decide, by decide, by decide⟩

/-- C6 as amended: the filename derived for a URL saved as an HTML page
follows the claim's rule with the already-has-the-extension test
accepting `.htm` as well as `.html` (case-insensitively): a non-empty
final path segment is used, with ".html" appended unless the name
already ends in ".html" or ".htm"; an empty or slash-terminated path
yields the last non-empty path segment plus ".html"; and "home.html"
when no non-empty segment exists. -/
theorem C6_filename_rule : ∀ (n : Nat) (url : String),
    derivedFilename n "html" url = claimHtmlFilename (urlPath url).data := by
  intro n url
  simp only [derivedFilename, claimHtmlFilename, basenameOf]
  by_cases hb : afterLast '/' (urlPath url).data = []
  · have hbr := strip_split_getLastD (urlPath url).data
    rw [List.getLastD_eq_getLast?] at hbr
    simp [hb, hbr]
  · simp [hb]

/-- C7: when the derived local file already exists, `download_file`
returns before any body request: the trace holds only the call event
(no `httpGet`, no `wrote`) and the state — counter and files — is
unchanged. -/
theorem C7_exists_skip :
    ∀ (w : World) (cfg : Config) (u e : String) (st : CrawlState),
      st.files.contains (derivedFilename w.now e u) = true →
      download_file w cfg u e st = (st, [Event.downloadCall u]) :=
  fun w cfg u e st hex => download_file_exists_skip w cfg u e st hex

theorem C7_exists_skip_witness :
    ((initState ["x.pdf"]).files.contains (derivedFilename wPdf.now "pdf" "http://a/x.pdf") = true) ∧
    download_file wPdf cfgPdf0 "http://a/x.pdf" "pdf" (initState ["x.pdf"]) =
      (initState ["x.pdf"], [Event.downloadCall "http://a/x.pdf"]) :=
  ⟨by decide,
   C7_exists_skip wPdf cfgPdf0 "http://a/x.pdf" "pdf" (initState ["x.pdf"]) (by decide)⟩

/-- C8: a failed body request, status check or disk write leaves the
counter unchanged and `download_file` returns normally, so the crawl
continues with the remaining links: in a run where the first of two
downloads fails, the second is still fetched and exactly one file is
counted. -/
theorem C8_error_resilience :
    (∀ (w : World) (cfg : Config) (u e : String) (st : CrawlState),
        w.http u ≠ DlResult.ok →
        ((download_file w cfg u e st).1).count = st.count) ∧
    ((crawl wErr cfgPdf0 2 "http://a/" 1 (initState [])).1.count = 1 ∧
      Event.httpGet "http://a/x.pdf" ∈ (crawl wErr cfgPdf0 2 "http://a/" 1 (initState [])).2 ∧
      Event.httpGet "http://a/y.pdf" ∈ (crawl wErr cfgPdf0 2 "http://a/" 1 (initState [])).2) := by
  constructor
  · intro w cfg u e st herr
    exact download_file_err_count w cfg u e st herr
  · exact ⟨by decide, by decide, by decide⟩

theorem C8_error_resilience_witness :
    (wErr.http "http://a/x.pdf" ≠ DlResult.ok) ∧
    ((download_file wErr cfgPdf0 "http://a/x.pdf" "pdf" (initState [])).1).count =
      (initState []).count :=
  ⟨by decide,
   C8_error_resilience.1 wErr cfgPdf0 "http://a/x.pdf" "pdf" (initState []) (by decide)⟩

/-- C9: the stay-on-domain restriction is applied only to links
classified as pages: a link with an allowed non-html extension is
dispatched to `download_file` even when its host differs from the start
domain, while an html-classified link with a foreign host is skipped
outright (empty trace). -/
theorem C9_domain_only_pages :
    (∀ (w : World) (cfg : Config) (fuel : Nat) (link : String) (depth : Nat)
        (st : CrawlState),
        linkExt link ≠ "html" → linkExt link ∈ cfg.allowed_exts →
        (cfg.max_files = 0 ∨ st.count < cfg.max_files) →
        cfg.stay_on_domain = true → urlNetloc link ≠ cfg.start_domain →
        Event.downloadCall link ∈
          (processLinks w cfg (crawl w cfg fuel) [link] depth st).2) ∧
    (∀ (w : World) (cfg : Config) (fuel : Nat) (link : String) (depth : Nat)
        (st : CrawlState),
        linkExt link = "html" →
        cfg.stay_on_domain = true → urlNetloc link ≠ cfg.start_domain →
        (processLinks w cfg (crawl w cfg fuel) [link] depth st).2 = []) := by
  constructor
  · intro w cfg fuel link depth st hext hall hbud _ _
    simp only [processLinks]
    rw [if_neg hext, if_pos hall]
    have hnbrk : ¬(cfg.max_files ≠ 0 ∧ cfg.max_files ≤ st.count) := by
      rcases hbud with h0 | hlt
      · intro hc
        exact hc.1 h0
      · intro hc
        omega
    rw [if_neg hnbrk]
    dsimp only
    rw [List.mem_append]
    exact Or.inl (download_file_call_mem w cfg link (linkExt link) st)
  · intro w cfg fuel link depth st hext hdom hne
    simp only [processLinks]
    rw [if_pos hext, if_pos ⟨hdom, hne⟩]

theorem C9_domain_only_pages_witness :
    (linkExt "http://b/x.pdf" ≠ "html" ∧ linkExt "http://b/x.pdf" ∈ cfgPdf0.allowed_exts ∧
      (cfgPdf0.max_files = 0 ∨ (initState []).count < cfgPdf0.max_files) ∧
      cfgPdf0.stay_on_domain = true ∧ urlNetloc "http://b/x.pdf" ≠ cfgPdf0.start_domain) ∧
    Event.downloadCall "http://b/x.pdf" ∈
      (processLinks wPdf cfgPdf0 (crawl wPdf cfgPdf0 2) ["http://b/x.pdf"] 1 (initState [])).2 :=
  ⟨⟨by decide, by decide, by decide, by decide, by decide⟩,
   C9_domain_only_pages.1 wPdf cfgPdf0 2 "http://b/x.pdf" 1 (initState [])
     (by decide) (by decide) (by decide) (by decide) (by decide)⟩

/-- C10: the starting URL is never passed to `download_file` in a run
started the way `main` starts it (empty visited set, depth 1): every
downloaded URL comes from the link sets of fetched pages, which exclude
the already-visited start. -/
theorem C10_start_never_downloaded :
    ∀ (w : World) (cfg : Config) (fuel : Nat) (start : String) (files : List String)
      (x : String),
      x ∈ dlUrls (crawl w cfg fuel start 1 (initState files)).2 → x ≠ start := by
  intro w cfg fuel start files x hm
  exact (crawl_dlNew w cfg fuel start 1 (initState files) x hm).2

theorem C10_start_never_downloaded_witness :
    ("http://a/x.pdf" ∈ dlUrls (crawl wPdf cfgPdf0 2 "http://a/" 1 (initState [])).2) ∧
    "http://a/x.pdf" ≠ "http://a/" :=
  ⟨by decide,
   C10_start_never_downloaded wPdf cfgPdf0 2 "http://a/" [] "http://a/x.pdf" (by decide)⟩

end WebCrawler
